import Mathlib

/-!
Shallow embedding of the NH-RSA citation resolver (`src/app.js`).

The program normalizes a free-form citation string, parses it into a
(chapter, section) pair, orders chapters by a (base, suffixOrdinal) token,
resolves a chapter to an archive folder through an exact map or a scan of
inclusive ranges, and formats the final document URL.  JavaScript strings
are modelled as Lean `String`s (lists of characters); the ASCII fragment of
`toUpperCase`/`toLowerCase` is modelled, which is exact on every character
class the program's grammar admits.  Nullable values are `Option`s and
thrown exceptions are the `Except` error channel.
-/

deriving instance DecidableEq for Except

namespace NhRsa

/-- The error taxonomy of the core: `parseRSA` throws a parse error,
`chapterToken` a bad-chapter-format error, `buildUrl` a missing-folder
error.  The payload is the offending chapter string. -/
inductive AppError where
  | parseError
  | badChapterFormat (chapter : String)
  | missingFolder (chapter : String)
  deriving DecidableEq, Repr

/-- `{ chapter, section }` as returned by `parseRSA`; `section` is `null`able. -/
structure Citation where
  chapter : String
  «section» : Option String
  deriving DecidableEq, Repr

/-- One entry of `title_ranges`: an inclusive chapter range sharing a folder. -/
structure TitleRange where
  start : String
  «end» : String
  folder : String
  deriving DecidableEq, Repr

/-- The mapping payload.  Either top-level field may be absent
(`payload.chapter_to_title?.` and `payload.title_ranges || []` in the
source); a JSON object is an association list. -/
structure MappingPayload where
  chapter_to_title : Option (List (String × String))
  title_ranges : Option (List TitleRange)
  deriving DecidableEq, Repr

/-- `[a-z]` as a character test. -/
def isLowerAlpha (c : Char) : Bool := decide ('a' ≤ c) && decide (c ≤ 'z')

/-- `[A-Z]` as a character test. -/
def isUpperAlpha (c : Char) : Bool := decide ('A' ≤ c) && decide (c ≤ 'Z')

/-- `[a-zA-Z]`: what the `/i`-flagged class `[a-z]` accepts. -/
def isAsciiLetter (c : Char) : Bool := isLowerAlpha c || isUpperAlpha c

/-- The class `[0-9a-z-]` under the `/i` flag: digit, ASCII letter or hyphen. -/
def isSecChar (c : Char) : Bool := c.isDigit || isAsciiLetter c || decide (c = '-')

/-- JavaScript whitespace (`\s`, also the set trimmed by `String.trim`):
ASCII blank and control whitespace, NBSP, Ogham space, the Unicode space
separators, line and paragraph separators, narrow/medium spaces, ideographic
space, and the BOM. -/
def isJsSpace (c : Char) : Bool :=
  decide (c.toNat = 0x20) || (decide (0x9 ≤ c.toNat) && decide (c.toNat ≤ 0xD)) ||
  decide (c.toNat = 0xA0) || decide (c.toNat = 0x1680) ||
  (decide (0x2000 ≤ c.toNat) && decide (c.toNat ≤ 0x200A)) ||
  decide (c.toNat = 0x2028) || decide (c.toNat = 0x2029) ||
  decide (c.toNat = 0x202F) || decide (c.toNat = 0x205F) ||
  decide (c.toNat = 0x3000) || decide (c.toNat = 0xFEFF)

/-- ASCII fragment of JavaScript `toUpperCase` on one character. -/
def upChar (c : Char) : Char :=
  if isLowerAlpha c then Char.ofNat (c.toNat - 32) else c

/-- ASCII fragment of JavaScript `toLowerCase` on one character. -/
def lowChar (c : Char) : Char :=
  if isUpperAlpha c then Char.ofNat (c.toNat + 32) else c

/-- `s.trim()`: drop whitespace from both ends. -/
def jsTrim (l : List Char) : List Char :=
  ((l.dropWhile isJsSpace).reverse.dropWhile isJsSpace).reverse

/-- `function normalize(s) { return (s || "").trim().toLowerCase().replace(/\s+/g, ""); }`
with a nullable argument: trim, lowercase, then delete every whitespace run
(deleting every run of whitespace characters globally is deleting every
whitespace character). -/
def normalize (s : Option String) : String :=
  ⟨((jsTrim (s.getD "").data).map lowChar).filter (fun c => !isJsSpace c)⟩

/-- `if (s.startsWith("rsa")) s = s.slice(3);` -/
def stripRsa (s : String) : String :=
  match s.data with
  | 'r' :: 's' :: 'a' :: rest => ⟨rest⟩
  | _ => s

/-- Split a character list at its first `':'`: returns the prefix before it
and, when a colon is present, the remainder after it. -/
def splitColon : List Char → List Char × Option (List Char)
  | [] => ([], none)
  | c :: rest =>
    if c = ':' then ([], some rest)
    else
      let p := splitColon rest
      (c :: p.1, p.2)

/-- What may follow the digit run inside the chapter group: nothing, or a
hyphen and exactly one letter. -/
def chapTail : List Char → Bool
  | [] => true
  | [d, c] => decide (d = '-') && isAsciiLetter c
  | _ => false

/-- The chapter part of the parse regex, `\d+(?:-[a-z])?` under `/i`,
anchored: a nonempty digit run optionally followed by a hyphen and exactly
one ASCII letter. -/
def chapOk (l : List Char) : Bool :=
  !(l.takeWhile Char.isDigit).isEmpty && chapTail (l.dropWhile Char.isDigit)

/-- The anchored match `^(\d+(?:-[a-z])?)(?::([0-9a-z-]+))?$` (flag `/i`)
on a character list, returning the two capture groups.  Neither character
class contains `':'`, so a successful match splits the input at its first
colon (when the optional group participates) or has no colon at all. -/
def matchCit (l : List Char) : Option (List Char × Option (List Char)) :=
  match splitColon l with
  | (pre, none) => if chapOk pre then some (pre, none) else none
  | (pre, some sec) =>
    if chapOk pre && !sec.isEmpty && sec.all isSecChar then some (pre, some sec)
    else none

/-- `parseRSA`: normalize, strip a leading `"rsa"`, match the citation
regex; on failure throw the parse error, on success return the lowercased
capture groups (`m[1].toLowerCase()`, `m[2] ? m[2].toLowerCase() : null`). -/
def parseRSA (input : String) : Except AppError Citation :=
  let s := stripRsa (normalize (some input))
  match matchCit s.data with
  | none => .error .parseError
  | some (chap, sec) =>
    .ok ⟨⟨chap.map lowChar⟩, sec.map (fun t => (⟨t.map lowChar⟩ : String))⟩

/-- `parseInt(m[1], 10)` on a digit run. -/
def decFold (l : List Char) : Nat :=
  l.foldl (fun n c => n * 10 + (c.toNat - 48)) 0

/-- The suffix loop of `chapterToken`:
`for (const c of suf) n = n * 26 + (c.charCodeAt(0) - 64)` on the
uppercased suffix. -/
def sufFold (l : List Char) : Nat :=
  l.foldl (fun n c => n * 26 + (c.toNat - 64)) 0

/-- `chapterToken`: uppercase the chapter string, match the stricter
anchored pattern `^(\d+)(?:-([A-Z]+))?$`, and return
`[parseInt(digits), base-26 suffix ordinal]`; otherwise throw the
bad-chapter-format error carrying the original string. -/
def chapterToken (ch : String) : Except AppError (Nat × Nat) :=
  let u := ch.data.map upChar
  let ds := u.takeWhile Char.isDigit
  if ds.isEmpty then .error (.badChapterFormat ch)
  else
    match u.dropWhile Char.isDigit with
    | [] => .ok (decFold ds, 0)
    | d :: suf =>
      if decide (d = '-') && !suf.isEmpty && suf.all isUpperAlpha then
        .ok (decFold ds, sufFold suf)
      else .error (.badChapterFormat ch)

/-- The comparison `a[0] < x[0] || (a[0] === x[0] && a[1] <= x[1])` used on
tokens by `inRange`: lexicographic (base, suffixOrdinal) non-strict order. -/
def tokLe (a x : Nat × Nat) : Bool :=
  decide (a.1 < x.1) || (decide (a.1 = x.1) && decide (a.2 ≤ x.2))

/-- Strict lexicographic order on tokens (base first, then suffix ordinal). -/
def tokLt (a x : Nat × Nat) : Bool :=
  decide (a.1 < x.1) || (decide (a.1 = x.1) && decide (a.2 < x.2))

/-- `inRange(ch, start, end)`: tokenize all three chapters (propagating any
bad-chapter-format throw) and test inclusive containment. -/
def inRange (ch start stop : String) : Except AppError Bool := do
  let x ← chapterToken ch
  let a ← chapterToken start
  let b ← chapterToken stop
  .ok (tokLe a x && tokLe x b)

/-- `s.toLowerCase()` on a whole string. -/
def jsToLower (s : String) : String := ⟨s.data.map lowChar⟩

/-- Does a `title_ranges` entry contain the chapter (per `inRange` on the
lowercased bounds), with a thrown error counting as no hit? -/
def rangeHit (chapter : String) (tr : TitleRange) : Bool :=
  match inRange chapter (jsToLower tr.start) (jsToLower tr.«end») with
  | .ok true => true
  | _ => false

/-- The `for (const tr of ...)` loop of `folderForChapter`: return the
folder of the first range containing the chapter, `null` when none does,
propagating any throw from `inRange`. -/
def scanRanges (chapter : String) : List TitleRange → Except AppError (Option String)
  | [] => .ok none
  | tr :: rest => do
    let hit ← inRange chapter (jsToLower tr.start) (jsToLower tr.«end»)
    if hit then .ok (some tr.folder) else scanRanges chapter rest

/-- `folderForChapter`: take the direct entry when it is truthy (present
and non-empty), otherwise scan the ranges in order; a missing
`chapter_to_title` or `title_ranges` field behaves as empty. -/
def folderForChapter (chapter : String) (payload : MappingPayload) :
    Except AppError (Option String) :=
  match (payload.chapter_to_title.getD []).lookup chapter with
  | some d => if d = "" then scanRanges chapter (payload.title_ranges.getD []) else .ok (some d)
  | none => scanRanges chapter (payload.title_ranges.getD [])

/-- The published archive root. -/
def BASE : String := "https://gc.nh.gov/rsa/html"

/-- `buildUrl`: throw the missing-folder error on a null or empty folder;
otherwise interpolate `BASE/folder/chapter/chapter-section.htm`, with
`mrg` in place of a null (or empty, also falsy) section. -/
def buildUrl (chapter : String) («section» : Option String) (folder : Option String) :
    Except AppError String :=
  match folder with
  | none => .error (.missingFolder chapter)
  | some f =>
    if f = "" then .error (.missingFolder chapter)
    else
      match «section» with
      | some sec =>
        if sec = "" then .ok (BASE ++ "/" ++ f ++ "/" ++ chapter ++ "/" ++ chapter ++ "-mrg.htm")
        else .ok (BASE ++ "/" ++ f ++ "/" ++ chapter ++ "/" ++ chapter ++ "-" ++ sec ++ ".htm")
      | none => .ok (BASE ++ "/" ++ f ++ "/" ++ chapter ++ "/" ++ chapter ++ "-mrg.htm")

/-! ### Character-level facts -/

theorem toNat_ofNat_valid (n : Nat) (h : n.isValidChar) : (Char.ofNat n).toNat = n := by
  rw [Char.ofNat, dif_pos h]
  rfl

theorem isLowerAlpha_iff {c : Char} : isLowerAlpha c = true ↔ 97 ≤ c.toNat ∧ c.toNat ≤ 122 := by
  simp only [isLowerAlpha, Bool.and_eq_true, decide_eq_true_eq, Char.le_def]
  exact Iff.rfl

theorem isUpperAlpha_iff {c : Char} : isUpperAlpha c = true ↔ 65 ≤ c.toNat ∧ c.toNat ≤ 90 := by
  simp only [isUpperAlpha, Bool.and_eq_true, decide_eq_true_eq, Char.le_def]
  exact Iff.rfl

theorem isDigit_iff {c : Char} : c.isDigit = true ↔ 48 ≤ c.toNat ∧ c.toNat ≤ 57 := by
  simp only [Char.isDigit, Bool.and_eq_true, decide_eq_true_eq, ge_iff_le]
  exact Iff.rfl

theorem isJsSpace_iff {c : Char} : isJsSpace c = true ↔
    (c.toNat = 0x20 ∨ (0x9 ≤ c.toNat ∧ c.toNat ≤ 0xD) ∨ c.toNat = 0xA0 ∨ c.toNat = 0x1680 ∨
     (0x2000 ≤ c.toNat ∧ c.toNat ≤ 0x200A) ∨ c.toNat = 0x2028 ∨ c.toNat = 0x2029 ∨
     c.toNat = 0x202F ∨ c.toNat = 0x205F ∨ c.toNat = 0x3000 ∨ c.toNat = 0xFEFF) := by
  simp [isJsSpace]
  tauto

theorem toNat_dash : ('-').toNat = 45 := rfl

theorem toNat_colon : (':').toNat = 58 := rfl

theorem upChar_of_lower {c : Char} (h : isLowerAlpha c = true) :
    (upChar c).toNat = c.toNat - 32 := by
  have hb := isLowerAlpha_iff.mp h
  have hv : (c.toNat - 32).isValidChar := Or.inl (by omega)
  simp only [upChar, if_pos h]
  exact toNat_ofNat_valid _ hv

theorem upChar_of_not_lower {c : Char} (h : isLowerAlpha c = false) : upChar c = c := by
  simp [upChar, h]

theorem lowChar_of_upper {c : Char} (h : isUpperAlpha c = true) :
    (lowChar c).toNat = c.toNat + 32 := by
  have hb := isUpperAlpha_iff.mp h
  have hv : (c.toNat + 32).isValidChar := Or.inl (by omega)
  simp only [lowChar, if_pos h]
  exact toNat_ofNat_valid _ hv

theorem lowChar_of_not_upper {c : Char} (h : isUpperAlpha c = false) : lowChar c = c := by
  simp [lowChar, h]

theorem upChar_digit {c : Char} (h : c.isDigit = true) : upChar c = c := by
  have hb := isDigit_iff.mp h
  refine upChar_of_not_lower ?_
  rw [Bool.eq_false_iff]
  intro hl
  have := isLowerAlpha_iff.mp hl
  omega

theorem lowChar_digit {c : Char} (h : c.isDigit = true) : lowChar c = c := by
  have hb := isDigit_iff.mp h
  refine lowChar_of_not_upper ?_
  rw [Bool.eq_false_iff]
  intro hl
  have := isUpperAlpha_iff.mp hl
  omega

theorem upChar_dash : upChar '-' = '-' := by decide

theorem isDigit_upChar {c : Char} (h : c.isDigit = true) : (upChar c).isDigit = true := by
  rw [upChar_digit h]
  exact h

theorem isUpperAlpha_upChar {c : Char} (h : isAsciiLetter c = true) :
    isUpperAlpha (upChar c) = true := by
  rcases Bool.or_eq_true_iff.mp h with hl | hu
  · have hb := isLowerAlpha_iff.mp hl
    rw [isUpperAlpha_iff, upChar_of_lower hl]
    omega
  · rwa [upChar_of_not_lower]
    have hb := isUpperAlpha_iff.mp hu
    rw [Bool.eq_false_iff]
    intro hl
    have := isLowerAlpha_iff.mp hl
    omega

theorem not_isDigit_upChar_of_letter {c : Char} (h : isAsciiLetter c = true) :
    (upChar c).isDigit = false := by
  have hb := isUpperAlpha_iff.mp (isUpperAlpha_upChar h)
  rw [Bool.eq_false_iff]
  intro hd
  have := isDigit_iff.mp hd
  omega

theorem isAsciiLetter_lowChar {c : Char} (h : isAsciiLetter c = true) :
    isAsciiLetter (lowChar c) = true := by
  rcases Bool.or_eq_true_iff.mp h with hl | hu
  · have hb := isLowerAlpha_iff.mp hl
    have : isUpperAlpha c = false := by
      rw [Bool.eq_false_iff]
      intro hx
      have := isUpperAlpha_iff.mp hx
      omega
    rw [lowChar_of_not_upper this]
    exact h
  · have hb := isUpperAlpha_iff.mp hu
    have hlow : isLowerAlpha (lowChar c) = true := by
      rw [isLowerAlpha_iff, lowChar_of_upper hu]
      omega
    simp [isAsciiLetter, hlow]

/-! ### List scanning facts -/

theorem takeWhile_append_all {p : Char → Bool} {l1 l2 : List Char}
    (h : ∀ c ∈ l1, p c = true) :
    (l1 ++ l2).takeWhile p = l1 ++ l2.takeWhile p := by
  induction l1 with
  | nil => simp
  | cons a t ih =>
    simp [List.takeWhile_cons, h a (by simp), ih (fun c hc => h c (by simp [hc]))]

theorem dropWhile_append_all {p : Char → Bool} {l1 l2 : List Char}
    (h : ∀ c ∈ l1, p c = true) :
    (l1 ++ l2).dropWhile p = l2.dropWhile p := by
  induction l1 with
  | nil => simp
  | cons a t ih =>
    simp [List.dropWhile_cons, h a (by simp), ih (fun c hc => h c (by simp [hc]))]

theorem takeWhile_cons_false {p : Char → Bool} {c : Char} {l : List Char}
    (h : p c = false) : (c :: l).takeWhile p = [] := by
  simp [List.takeWhile_cons, h]

theorem dropWhile_cons_false {p : Char → Bool} {c : Char} {l : List Char}
    (h : p c = false) : (c :: l).dropWhile p = c :: l := by
  simp [List.dropWhile_cons, h]

/-! ### `splitColon` facts -/

theorem splitColon_no_colon {l : List Char} (h : ∀ c ∈ l, ¬ c = ':') :
    splitColon l = (l, none) := by
  induction l with
  | nil => rfl
  | cons a t ih =>
    simp only [splitColon, if_neg (h a (by simp))]
    rw [ih (fun c hc => h c (by simp [hc]))]

theorem splitColon_append {a t : List Char} (h : ∀ c ∈ a, ¬ c = ':') :
    splitColon (a ++ ':' :: t) = (a, some t) := by
  induction a with
  | nil => simp [splitColon]
  | cons x xs ih =>
    simp only [List.cons_append, splitColon, if_neg (h x (by simp)), List.append_eq]
    rw [ih (fun c hc => h c (by simp [hc]))]

theorem splitColon_sound : ∀ l : List Char,
    (∀ c ∈ (splitColon l).1, ¬ c = ':') ∧
    ((splitColon l).2 = none → (splitColon l).1 = l) ∧
    (∀ t, (splitColon l).2 = some t → l = (splitColon l).1 ++ ':' :: t) := by
  intro l
  induction l with
  | nil => exact ⟨by simp [splitColon], by simp [splitColon], by simp [splitColon]⟩
  | cons a rest ih =>
    by_cases ha : a = ':'
    · subst ha
      refine ⟨by simp [splitColon], by simp [splitColon], ?_⟩
      intro t ht
      simp only [splitColon, if_pos rfl] at ht ⊢
      cases ht
      rfl
    · obtain ⟨ih1, ih2, ih3⟩ := ih
      simp only [splitColon, if_neg ha]
      refine ⟨?_, ?_, ?_⟩
      · intro c hc
        rcases List.mem_cons.mp hc with rfl | hc
        · exact ha
        · exact ih1 c hc
      · intro h2
        rw [ih2 h2]
      · intro t ht
        rw [List.cons_append]
        rw [← ih3 t ht]

/-! ### The citation grammar, stated as the spec states it -/

/-- The (amended) chapter grammar of the parser, written as the spec
writes it: a nonempty digit run, optionally followed by a hyphen and a
single letter. -/
def ChapterStr (l : List Char) : Prop :=
  ∃ ds suf, l = ds ++ suf ∧ ds ≠ [] ∧ (∀ c ∈ ds, c.isDigit = true) ∧
    (suf = [] ∨ ∃ c, isAsciiLetter c = true ∧ suf = ['-', c])

/-- The full (amended) citation grammar: a chapter, optionally followed by
a colon and a nonempty run of alphanumerics or hyphens, anchored at both
ends. -/
def CitStr (l : List Char) : Prop :=
  ChapterStr l ∨
    ∃ chap sec, l = chap ++ ':' :: sec ∧ ChapterStr chap ∧ sec ≠ [] ∧
      ∀ c ∈ sec, isSecChar c = true

theorem chapter_no_colon {l : List Char} (h : ChapterStr l) : ∀ c ∈ l, ¬ c = ':' := by
  obtain ⟨ds, suf, rfl, _, hds, hsuf⟩ := h
  intro c hc hcol
  subst hcol
  rcases List.mem_append.mp hc with hd | hs
  · have h58 := isDigit_iff.mp (hds _ hd)
    rw [toNat_colon] at h58
    omega
  · rcases hsuf with rfl | ⟨x, hx, rfl⟩
    · simp at hs
    · rcases List.mem_cons.mp hs with heq | hs
      · cases heq
      · rcases List.mem_singleton.mp hs with rfl
        rcases Bool.or_eq_true_iff.mp hx with hl | hu
        · have h58 := isLowerAlpha_iff.mp hl
          rw [toNat_colon] at h58
          omega
        · have h58 := isUpperAlpha_iff.mp hu
          rw [toNat_colon] at h58
          omega

theorem chapOk_iff {l : List Char} : chapOk l = true ↔ ChapterStr l := by
  constructor
  · intro h
    rw [chapOk, Bool.and_eq_true] at h
    obtain ⟨h1, h2⟩ := h
    have h1' : l.takeWhile Char.isDigit ≠ [] := by
      intro hnil
      rw [hnil] at h1
      simp at h1
    have hl : l = l.takeWhile Char.isDigit ++ l.dropWhile Char.isDigit :=
      (List.takeWhile_append_dropWhile Char.isDigit l).symm
    have hdig : ∀ c ∈ l.takeWhile Char.isDigit, Char.isDigit c = true :=
      fun c hc => List.mem_takeWhile_imp hc
    cases hmatch : l.dropWhile Char.isDigit with
    | nil =>
      rw [hmatch] at hl
      exact ⟨l.takeWhile Char.isDigit, [], hl, h1', hdig, Or.inl rfl⟩
    | cons d rest =>
      rw [hmatch] at h2 hl
      cases rest with
      | nil => simp [chapTail] at h2
      | cons c rest2 =>
        cases rest2 with
        | nil =>
          simp only [chapTail, Bool.and_eq_true, decide_eq_true_eq] at h2
          obtain ⟨hd, hc⟩ := h2
          subst hd
          exact ⟨l.takeWhile Char.isDigit, ['-', c], hl, h1', hdig, Or.inr ⟨c, hc, rfl⟩⟩
        | cons e rest3 => simp [chapTail] at h2
  · rintro ⟨ds, suf, rfl, hne, hdig, hsuf⟩
    have hdsTake : ∀ l2 : List Char, (ds ++ l2).takeWhile Char.isDigit = ds ++ l2.takeWhile Char.isDigit :=
      fun l2 => takeWhile_append_all hdig
    have hdsDrop : ∀ l2 : List Char, (ds ++ l2).dropWhile Char.isDigit = l2.dropWhile Char.isDigit :=
      fun l2 => dropWhile_append_all hdig
    rcases hsuf with rfl | ⟨c, hc, rfl⟩
    · rw [chapOk, Bool.and_eq_true, hdsTake, hdsDrop]
      refine ⟨?_, by simp [chapTail]⟩
      simp [hne]
    · rw [chapOk, Bool.and_eq_true, hdsTake, hdsDrop]
      have hdash : Char.isDigit '-' = false := by decide
      constructor
      · rw [takeWhile_cons_false hdash]
        simp [hne]
      · rw [dropWhile_cons_false hdash]
        simp [chapTail, hc]

/-! ### `matchCit` against the grammar -/

theorem matchCit_chapter {l : List Char} (h : ChapterStr l) : matchCit l = some (l, none) := by
  rw [matchCit, splitColon_no_colon (chapter_no_colon h)]
  simp [chapOk_iff.mpr h]

theorem matchCit_section {chap sec : List Char} (hc : ChapterStr chap) (hs : sec ≠ [])
    (hall : ∀ c ∈ sec, isSecChar c = true) :
    matchCit (chap ++ ':' :: sec) = some (chap, some sec) := by
  rw [matchCit, splitColon_append (chapter_no_colon hc)]
  have h2 : sec.isEmpty = false := by
    cases sec with
    | nil => exact absurd rfl hs
    | cons a t => rfl
  simp [chapOk_iff.mpr hc, h2, List.all_eq_true.mpr hall]

theorem citStr_of_matchCit {l : List Char} {r : List Char × Option (List Char)}
    (h : matchCit l = some r) : CitStr l := by
  rw [matchCit] at h
  obtain ⟨hnc, hnone, hsome⟩ := splitColon_sound l
  cases hsp : splitColon l with
  | mk pre post =>
    rw [hsp] at h hnc hnone hsome
    cases post with
    | none =>
      by_cases hok : chapOk pre = true
      · left
        have hpre : pre = l := hnone rfl
        have := chapOk_iff.mp hok
        rwa [hpre] at this
      · rw [Bool.not_eq_true] at hok
        simp [hok] at h
    | some sec =>
      by_cases hok : (chapOk pre && !sec.isEmpty && sec.all isSecChar) = true
      · right
        simp only [Bool.and_eq_true, Bool.not_eq_eq_eq_not, Bool.not_true] at hok
        obtain ⟨⟨hok1, hok2⟩, hok3⟩ := hok
        have hdec : l = pre ++ ':' :: sec := hsome sec rfl
        refine ⟨pre, sec, hdec, chapOk_iff.mp hok1, ?_, List.all_eq_true.mp hok3⟩
        intro hnil
        rw [hnil] at hok2
        simp at hok2
      · rw [Bool.not_eq_true] at hok
        simp [hok] at h

theorem matchCit_none_of_not_cit {l : List Char} (h : ¬ CitStr l) : matchCit l = none := by
  cases hm : matchCit l with
  | none => rfl
  | some r => exact absurd (citStr_of_matchCit hm) h

/-! ### `chapterToken` on well-formed chapters -/

theorem map_upChar_digits {ds : List Char} (h : ∀ c ∈ ds, c.isDigit = true) :
    ds.map upChar = ds := by
  induction ds with
  | nil => rfl
  | cons a t ih =>
    rw [List.map_cons, upChar_digit (h a (by simp)), ih (fun c hc => h c (by simp [hc]))]

theorem map_upChar_letters {l : List Char} (h : ∀ c ∈ l, isAsciiLetter c = true) :
    ∀ c ∈ l.map upChar, isUpperAlpha c = true := by
  intro c hc
  obtain ⟨a, ha, rfl⟩ := List.mem_map.mp hc
  exact isUpperAlpha_upChar (h a ha)

theorem chapterToken_digits {ds : List Char} (h1 : ds ≠ []) (h2 : ∀ c ∈ ds, c.isDigit = true) :
    chapterToken ⟨ds⟩ = .ok (decFold ds, 0) := by
  have htake : ds.takeWhile Char.isDigit = ds := by
    have := @takeWhile_append_all Char.isDigit ds [] h2
    simpa using this
  have hdrop : ds.dropWhile Char.isDigit = [] := by
    have := @dropWhile_append_all Char.isDigit ds [] h2
    simpa using this
  have hie : ds.isEmpty = false := by
    cases ds with
    | nil => exact absurd rfl h1
    | cons a t => rfl
  simp only [chapterToken, map_upChar_digits h2, htake, hdrop, hie]
  simp

theorem chapterToken_suffixed {ds suf : List Char} (h1 : ds ≠ [])
    (h2 : ∀ c ∈ ds, c.isDigit = true) (h3 : suf ≠ [])
    (h4 : ∀ c ∈ suf, isAsciiLetter c = true) :
    chapterToken ⟨ds ++ '-' :: suf⟩ = .ok (decFold ds, sufFold (suf.map upChar)) := by
  have hdashd : Char.isDigit '-' = false := by decide
  have hmap : (ds ++ '-' :: suf).map upChar = ds ++ '-' :: suf.map upChar := by
    rw [List.map_append, map_upChar_digits h2, List.map_cons, upChar_dash]
  have htake : (ds ++ '-' :: suf.map upChar).takeWhile Char.isDigit = ds := by
    rw [takeWhile_append_all h2, takeWhile_cons_false hdashd, List.append_nil]
  have hdrop : (ds ++ '-' :: suf.map upChar).dropWhile Char.isDigit = '-' :: suf.map upChar := by
    rw [dropWhile_append_all h2, dropWhile_cons_false hdashd]
  have hie : ds.isEmpty = false := by
    cases ds with
    | nil => exact absurd rfl h1
    | cons a t => rfl
  have hsufne : (suf.map upChar).isEmpty = false := by
    cases suf with
    | nil => exact absurd rfl h3
    | cons a t => rfl
  have hall : (suf.map upChar).all isUpperAlpha = true :=
    List.all_eq_true.mpr (map_upChar_letters h4)
  simp only [chapterToken, hmap, htake, hdrop, hie, hsufne, hall]
  simp

/-- The spec's letter position: 1 for `a`/`A` through 26 for `z`/`Z`. -/
def letterPos (c : Char) : Nat :=
  if isLowerAlpha c then c.toNat - 'a'.toNat + 1 else c.toNat - 'A'.toNat + 1

theorem upChar_val_letterPos {c : Char} (h : isAsciiLetter c = true) :
    (upChar c).toNat - 64 = letterPos c := by
  have ha : ('a').toNat = 97 := rfl
  have hA : ('A').toNat = 65 := rfl
  rcases Bool.or_eq_true_iff.mp h with hl | hu
  · have hb := isLowerAlpha_iff.mp hl
    rw [upChar_of_lower hl, letterPos, if_pos hl, ha]
    omega
  · have hb := isUpperAlpha_iff.mp hu
    have hnl : isLowerAlpha c = false := by
      rw [Bool.eq_false_iff]
      intro hx
      have := isLowerAlpha_iff.mp hx
      omega
    rw [upChar_of_not_lower hnl, letterPos, if_neg (by simp [hnl]), hA]
    omega

theorem sufFold_letterPos {suf : List Char} (h : ∀ c ∈ suf, isAsciiLetter c = true) :
    sufFold (suf.map upChar) = suf.foldl (fun acc c => acc * 26 + letterPos c) 0 := by
  rw [sufFold, List.foldl_map]
  suffices hgen : ∀ (l : List Char), (∀ c ∈ l, isAsciiLetter c = true) → ∀ a : Nat,
      l.foldl (fun n c => n * 26 + ((upChar c).toNat - 64)) a =
        l.foldl (fun acc c => acc * 26 + letterPos c) a from hgen suf h 0
  intro l hl
  induction l with
  | nil => intro a; rfl
  | cons c t ih =>
    intro a
    rw [List.foldl_cons, List.foldl_cons, upChar_val_letterPos (hl c (by simp))]
    exact ih (fun x hx => hl x (by simp [hx])) _

theorem foldl_dec_ofDigits (v : Char → Nat) :
    ∀ (ds : List Char) (a : Nat),
      ds.foldl (fun n c => n * 10 + v c) a =
        a * 10 ^ ds.length + Nat.ofDigits 10 ((ds.map v).reverse) := by
  intro ds
  induction ds with
  | nil =>
    intro a
    simp [Nat.ofDigits]
  | cons c t ih =>
    intro a
    rw [List.foldl_cons, ih, List.map_cons, List.reverse_cons, Nat.ofDigits_append]
    simp only [List.length_cons, List.length_reverse, List.length_map, Nat.ofDigits_singleton]
    ring

theorem decFold_eq_ofDigits (ds : List Char) :
    decFold ds = Nat.ofDigits 10 ((ds.map (fun c => c.toNat - 48)).reverse) := by
  rw [decFold, foldl_dec_ofDigits]
  simp

/-! ### The token order -/

theorem tokLe_iff {a x : Nat × Nat} :
    tokLe a x = true ↔ (a.1 < x.1 ∨ (a.1 = x.1 ∧ a.2 ≤ x.2)) := by
  simp [tokLe]

theorem tokLt_iff {a x : Nat × Nat} :
    tokLt a x = true ↔ (a.1 < x.1 ∨ (a.1 = x.1 ∧ a.2 < x.2)) := by
  simp [tokLt]

theorem tokLe_refl (t : Nat × Nat) : tokLe t t = true := by
  rw [tokLe_iff]
  omega

theorem tokLe_trans {a b c : Nat × Nat} (h1 : tokLe a b = true) (h2 : tokLe b c = true) :
    tokLe a c = true := by
  rw [tokLe_iff] at h1 h2 ⊢
  omega

theorem tokLe_total (a b : Nat × Nat) : tokLe a b = true ∨ tokLe b a = true := by
  rw [tokLe_iff, tokLe_iff]
  omega

/-! ### `inRange` and the range scan -/

theorem inRange_eq {ch start stop : String} {x a b : Nat × Nat}
    (hx : chapterToken ch = .ok x) (ha : chapterToken start = .ok a)
    (hb : chapterToken stop = .ok b) :
    inRange ch start stop = .ok (tokLe a x && tokLe x b) := by
  rw [inRange, hx, ha, hb]
  rfl

theorem inRange_refl {c : String} {t : Nat × Nat} (h : chapterToken c = .ok t) :
    inRange c c c = .ok true := by
  rw [inRange_eq h h h, tokLe_refl]
  rfl

theorem scanRanges_eq_find {chapter : String} {rs : List TitleRange}
    (h : ∀ tr ∈ rs, ∃ bo, inRange chapter (jsToLower tr.start) (jsToLower tr.«end») = .ok bo) :
    scanRanges chapter rs = .ok ((rs.find? (rangeHit chapter)).map TitleRange.folder) := by
  induction rs with
  | nil => rfl
  | cons tr rest ih =>
    obtain ⟨bo, hbo⟩ := h tr (by simp)
    rw [scanRanges, hbo]
    cases bo with
    | true =>
      have hhit : rangeHit chapter tr = true := by
        rw [rangeHit, hbo]
      rw [List.find?_cons_of_pos _ hhit]
      rfl
    | false =>
      have hhit : rangeHit chapter tr = false := by
        rw [rangeHit, hbo]
      rw [List.find?_cons_of_neg _ (by simp [hhit])]
      simpa using ih (fun x hx => h x (by simp [hx]))

/-! ### `normalize` facts -/

theorem isJsSpace_lowChar (c : Char) : isJsSpace (lowChar c) = isJsSpace c := by
  by_cases hu : isUpperAlpha c = true
  · have hb := isUpperAlpha_iff.mp hu
    have hl := lowChar_of_upper hu
    have h1 : isJsSpace (lowChar c) = false := by
      rw [Bool.eq_false_iff]
      intro hs
      have := isJsSpace_iff.mp hs
      rw [hl] at this
      omega
    have h2 : isJsSpace c = false := by
      rw [Bool.eq_false_iff]
      intro hs
      have := isJsSpace_iff.mp hs
      omega
    rw [h1, h2]
  · rw [lowChar_of_not_upper (Bool.not_eq_true _ ▸ hu)]

theorem filter_map_dropWhile (l : List Char) :
    ((l.dropWhile isJsSpace).map lowChar).filter (fun c => !isJsSpace c) =
      (l.map lowChar).filter (fun c => !isJsSpace c) := by
  induction l with
  | nil => rfl
  | cons a t ih =>
    by_cases ha : isJsSpace a = true
    · have hstep : (a :: t).dropWhile isJsSpace = t.dropWhile isJsSpace := by
        simp [List.dropWhile_cons, ha]
      rw [hstep, ih, List.map_cons, List.filter_cons]
      have hfa : (!isJsSpace (lowChar a)) = false := by
        rw [isJsSpace_lowChar, ha]
        rfl
      simp [hfa]
    · have ha' : isJsSpace a = false := by
        rwa [Bool.not_eq_true] at ha
      rw [dropWhile_cons_false ha']

theorem filter_map_jsTrim (l : List Char) :
    ((jsTrim l).map lowChar).filter (fun c => !isJsSpace c) =
      (l.map lowChar).filter (fun c => !isJsSpace c) := by
  rw [jsTrim, List.map_reverse, List.filter_reverse, filter_map_dropWhile,
    List.map_reverse, List.filter_reverse, filter_map_dropWhile, List.reverse_reverse]

theorem normalize_some (s : String) :
    normalize (some s) = ⟨(s.data.map lowChar).filter (fun c => !isJsSpace c)⟩ := by
  rw [normalize]
  exact congrArg String.mk (filter_map_jsTrim s.data)

/-! ### `parseRSA` plumbing -/

theorem parseRSA_def (input : String) :
    parseRSA input =
      match matchCit (stripRsa (normalize (some input))).data with
      | none => .error .parseError
      | some (chap, sec) =>
        .ok ⟨⟨chap.map lowChar⟩, sec.map (fun t => (⟨t.map lowChar⟩ : String))⟩ := rfl

theorem matchCit_some_chapOk {l chap : List Char} {sec : Option (List Char)}
    (h : matchCit l = some (chap, sec)) : ChapterStr chap := by
  rw [matchCit] at h
  cases hsp : splitColon l with
  | mk pre post =>
    rw [hsp] at h
    cases post with
    | none =>
      by_cases hok : chapOk pre = true
      · simp only [hok, if_true, reduceIte, Option.some.injEq, Prod.mk.injEq] at h
        rcases h with ⟨rfl, rfl⟩
        exact chapOk_iff.mp hok
      · rw [Bool.not_eq_true] at hok
        simp [hok] at h
    | some s =>
      by_cases hok : (chapOk pre && !s.isEmpty && s.all isSecChar) = true
      · simp only [hok, if_true, reduceIte, Option.some.injEq, Prod.mk.injEq] at h
        rcases h with ⟨rfl, rfl⟩
        simp only [Bool.and_eq_true] at hok
        exact chapOk_iff.mp hok.1.1
      · rw [Bool.not_eq_true] at hok
        simp [hok] at h

theorem map_lowChar_digits {ds : List Char} (h : ∀ c ∈ ds, c.isDigit = true) :
    ds.map lowChar = ds := by
  induction ds with
  | nil => rfl
  | cons a t ih =>
    rw [List.map_cons, lowChar_digit (h a (by simp)), ih (fun c hc => h c (by simp [hc]))]

theorem lowChar_dash : lowChar '-' = '-' := by decide

/-! ### Claims -/

/-- C1 counterexample: the chapter suffix of the parse grammar is a single
letter, so `parseRSA` rejects the multi-letter-suffix chapter `"225-aa"`
that the claim says is accepted. -/
theorem c1_counterexample : parseRSA "225-aa" = .error .parseError := by decide

/-- C1 (amended): for every input, writing the remainder for the
normalized input after stripping a leading literal `"rsa"`, `parseRSA`
succeeds exactly when the remainder matches
`digits ("-" letter)? (":" [alnum or hyphen]+)?` — the chapter suffix is a
single letter — anchored at both ends; on success the returned citation is
the lowercased chapter and the lowercased section (null when no section is
present). -/
theorem c1_parse_grammar (input : String) :
    ((∃ cit, parseRSA input = .ok cit) ↔ CitStr (stripRsa (normalize (some input))).data) ∧
    (∀ chap sec : List Char, (stripRsa (normalize (some input))).data = chap ++ ':' :: sec →
      ChapterStr chap → sec ≠ [] → (∀ c ∈ sec, isSecChar c = true) →
      parseRSA input = .ok ⟨⟨chap.map lowChar⟩, some ⟨sec.map lowChar⟩⟩) ∧
    (ChapterStr (stripRsa (normalize (some input))).data →
      parseRSA input = .ok ⟨⟨(stripRsa (normalize (some input))).data.map lowChar⟩, none⟩) := by
  refine ⟨⟨?_, ?_⟩, ?_, ?_⟩
  · rintro ⟨cit, hcit⟩
    rw [parseRSA_def] at hcit
    cases hm : matchCit (stripRsa (normalize (some input))).data with
    | none =>
      rw [hm] at hcit
      cases hcit
    | some r => exact citStr_of_matchCit hm
  · intro hcs
    rcases hcs with hchap | ⟨chap, sec, hdec, hc, hs, hall⟩
    · exact ⟨_, by rw [parseRSA_def, matchCit_chapter hchap]⟩
    · exact ⟨_, by rw [parseRSA_def, hdec, matchCit_section hc hs hall]⟩
  · intro chap sec hdec hc hs hall
    rw [parseRSA_def, hdec, matchCit_section hc hs hall]
    rfl
  · intro hchap
    rw [parseRSA_def, matchCit_chapter hchap]
    rfl

/-- C1 witness: the amended theorem applied at input `"RSA 225-A:24"`. -/
theorem c1_witness : parseRSA "RSA 225-A:24" = .ok ⟨"225-a", some "24"⟩ := by
  have h := (c1_parse_grammar "RSA 225-A:24").2.1 ['2', '2', '5', '-', 'a'] ['2', '4']
    (by decide)
    ⟨['2', '2', '5'], ['-', 'a'], by decide, by decide, by decide,
      Or.inr ⟨'a', by decide, rfl⟩⟩
    (by decide) (by decide)
  exact h.trans (by decide)

/-- C2 counterexample: `chapter_to_title` contains the exact key `"10"`
(with value `""`), yet the resolver does scan the ranges and returns the
range folder instead of the key's value. -/
theorem c2_counterexample :
    (((⟨some [("10", "")], some [⟨"1", "20", "X"⟩]⟩ :
        MappingPayload).chapter_to_title.getD []).lookup "10" = some "") ∧
    folderForChapter "10" ⟨some [("10", "")], some [⟨"1", "20", "X"⟩]⟩ = .ok (some "X") ∧
    folderForChapter "10" ⟨some [("10", "")], some [⟨"1", "20", "X"⟩]⟩ ≠ .ok (some "") := by
  refine ⟨by decide, by decide, by decide⟩

/-- C2 (amended): if `chapter_to_title` maps the chapter to a non-empty
(truthy) value, `folderForChapter` returns that value immediately, for
every `title_ranges` — in particular a listed range with a different
folder containing the chapter is never consulted. -/
theorem c2_direct_precedence (chapter : String) (payload : MappingPayload) (d : String)
    (hd : (payload.chapter_to_title.getD []).lookup chapter = some d) (hne : d ≠ "") :
    folderForChapter chapter payload = .ok (some d) := by
  simp only [folderForChapter, hd, if_neg hne]

/-- C2 witness: the amended theorem applied where `"10"` maps to `"t5"`
while an overlapping range names folder `"Y"`. -/
theorem c2_witness :
    folderForChapter "10" ⟨some [("10", "t5")], some [⟨"1", "20", "Y"⟩]⟩ = .ok (some "t5") :=
  c2_direct_precedence "10" ⟨some [("10", "t5")], some [⟨"1", "20", "Y"⟩]⟩ "t5"
    (by decide) (by decide)

/-- C3: the token chain 225 < 225-a < 225-b < 225-z < 225-aa < 226 holds
under the strict (base, suffixOrdinal) order, and the non-strict order
used by `inRange` is reflexive, transitive and total over the tokens of
valid chapter strings. -/
theorem c3_token_order :
    (∃ t0 t1 t2 t3 t4 t5 : Nat × Nat,
      chapterToken "225" = .ok t0 ∧ chapterToken "225-a" = .ok t1 ∧
      chapterToken "225-b" = .ok t2 ∧ chapterToken "225-z" = .ok t3 ∧
      chapterToken "225-aa" = .ok t4 ∧ chapterToken "226" = .ok t5 ∧
      tokLt t0 t1 = true ∧ tokLt t1 t2 = true ∧ tokLt t2 t3 = true ∧
      tokLt t3 t4 = true ∧ tokLt t4 t5 = true) ∧
    (∀ (c : String) (t : Nat × Nat), chapterToken c = .ok t → tokLe t t = true) ∧
    (∀ (c1 c2 c3 : String) (t1 t2 t3 : Nat × Nat), chapterToken c1 = .ok t1 →
      chapterToken c2 = .ok t2 → chapterToken c3 = .ok t3 →
      tokLe t1 t2 = true → tokLe t2 t3 = true → tokLe t1 t3 = true) ∧
    (∀ (c1 c2 : String) (t1 t2 : Nat × Nat), chapterToken c1 = .ok t1 →
      chapterToken c2 = .ok t2 → tokLe t1 t2 = true ∨ tokLe t2 t1 = true) := by
  refine ⟨⟨(225, 0), (225, 1), (225, 2), (225, 26), (225, 27), (226, 0), by decide⟩,
    ?_, ?_, ?_⟩
  · intro c t h
    exact tokLe_refl t
  · intro c1 c2 c3 t1 t2 t3 h1 h2 h3 h12 h23
    exact tokLe_trans h12 h23
  · intro c1 c2 t1 t2 h1 h2
    exact tokLe_total t1 t2

/-- C3 witness: totality applied to the tokens of `"5"` and `"7-b"`. -/
theorem c3_witness : tokLe (5, 0) (7, 2) = true ∨ tokLe (7, 2) (5, 0) = true :=
  c3_token_order.2.2.2 "5" "7-b" (5, 0) (7, 2) (by decide) (by decide)

/-- C4: on a valid chapter — a digit run with an optional letter suffix —
`chapterToken` returns the decimal value of the digit run paired with the
left fold `acc * 26 + letterPosition` over the suffix (0 when there is no
suffix, so `"a"` gives 1, `"z"` 26, `"aa"` 27). -/
theorem c4_token_computation (ds suf : List Char) (h1 : ds ≠ [])
    (h2 : ∀ c ∈ ds, c.isDigit = true) (h3 : ∀ c ∈ suf, isAsciiLetter c = true) :
    chapterToken ⟨ds ++ (if suf.isEmpty then [] else '-' :: suf)⟩ =
      .ok (Nat.ofDigits 10 ((ds.map (fun c => c.toNat - 48)).reverse),
           suf.foldl (fun acc c => acc * 26 + letterPos c) 0) := by
  cases suf with
  | nil =>
    rw [show (if ([] : List Char).isEmpty then [] else '-' :: ([] : List Char)) = [] from rfl,
      List.append_nil, chapterToken_digits h1 h2, decFold_eq_ofDigits]
    rfl
  | cons a t =>
    rw [show (if (a :: t).isEmpty then [] else '-' :: a :: t) = '-' :: a :: t from rfl,
      chapterToken_suffixed h1 h2 (by simp) h3, decFold_eq_ofDigits,
      sufFold_letterPos h3]

/-- C4 witness: the computation applied at `"225-aa"`, giving suffix
ordinal 27. -/
theorem c4_witness : chapterToken "225-aa" = .ok (225, 27) := by
  have h := c4_token_computation ['2', '2', '5'] ['a', 'a'] (by decide) (by decide) (by decide)
  have hs : (⟨['2', '2', '5'] ++
      (if (['a', 'a'] : List Char).isEmpty then [] else '-' :: ['a', 'a'])⟩ : String) =
      "225-aa" := by decide
  rw [hs] at h
  exact h.trans (by decide)

/-- C5: `buildUrl` fails with the missing-folder error exactly when the
folder is null or empty; otherwise it returns
`BASE/folder/chapter/chapter-section.htm` when a (non-empty) section is
present and `BASE/folder/chapter/chapter-mrg.htm` when the section is
null. -/
theorem c5_buildUrl (chapter : String) (sec folder : Option String)
    (hsec : sec = none ∨ ∃ s, sec = some s ∧ s ≠ "") :
    (buildUrl chapter sec folder = .error (.missingFolder chapter) ↔
      (folder = none ∨ folder = some "")) ∧
    (∀ f, folder = some f → f ≠ "" →
      buildUrl chapter sec folder = .ok (match sec with
        | some s => BASE ++ "/" ++ f ++ "/" ++ chapter ++ "/" ++ chapter ++ "-" ++ s ++ ".htm"
        | none => BASE ++ "/" ++ f ++ "/" ++ chapter ++ "/" ++ chapter ++ "-mrg.htm")) := by
  cases folder with
  | none =>
    refine ⟨?_, ?_⟩
    · simp [buildUrl]
    · intro f hf
      cases hf
  | some f =>
    by_cases hf : f = ""
    · subst hf
      refine ⟨?_, ?_⟩
      · simp [buildUrl]
      · intro g hg hne
        cases hg
        exact absurd rfl hne
    · have hok : buildUrl chapter sec (some f) = .ok (match sec with
          | some s => BASE ++ "/" ++ f ++ "/" ++ chapter ++ "/" ++ chapter ++ "-" ++ s ++ ".htm"
          | none => BASE ++ "/" ++ f ++ "/" ++ chapter ++ "/" ++ chapter ++ "-mrg.htm") := by
        rcases hsec with rfl | ⟨s, rfl, hs⟩
        · simp [buildUrl, hf]
        · simp [buildUrl, hf, hs]
      refine ⟨?_, ?_⟩
      · rw [hok]
        constructor
        · intro h
          cases h
        · rintro (h | h)
          · cases h
          · rw [Option.some.injEq] at h
            exact absurd h hf
      · intro g hg hgne
        cases hg
        exact hok

/-- C5 witness: a section URL on a real folder, and the missing-folder
error on a null folder. -/
theorem c5_witness :
    buildUrl "261" (some "4") (some "title20") =
      .ok "https://gc.nh.gov/rsa/html/title20/261/261-4.htm" ∧
    buildUrl "261" none none = .error (.missingFolder "261") := by
  constructor
  · have h := (c5_buildUrl "261" (some "4") (some "title20")
      (Or.inr ⟨"4", rfl, by decide⟩)).2 "title20" rfl (by decide)
    exact h.trans (by decide)
  · exact ((c5_buildUrl "261" none none (Or.inl rfl)).1).mpr (Or.inl rfl)

/-- C6: when `chapter_to_title` has no entry for the chapter, the resolver
scans `title_ranges` in listed order and returns the folder of the first
entry whose inclusive lowercased range contains the chapter (so the
earliest of several overlapping matches wins), and `ok null` — not an
error — when no range matches. -/
theorem c6_range_scan (chapter : String) (payload : MappingPayload)
    (hdirect : (payload.chapter_to_title.getD []).lookup chapter = none)
    (hvalid : ∀ tr ∈ payload.title_ranges.getD [],
      ∃ bo, inRange chapter (jsToLower tr.start) (jsToLower tr.«end») = .ok bo) :
    folderForChapter chapter payload =
      .ok (((payload.title_ranges.getD []).find? (rangeHit chapter)).map TitleRange.folder) := by
  simp only [folderForChapter, hdirect]
  exact scanRanges_eq_find hvalid

/-- C6 witness: two overlapping ranges both containing chapter `"25"`; the
first listed one wins. -/
theorem c6_witness :
    folderForChapter "25" ⟨some [], some [⟨"1", "30", "tA"⟩, ⟨"20", "40", "tB"⟩]⟩ =
      .ok (some "tA") := by
  have h := c6_range_scan "25" ⟨some [], some [⟨"1", "30", "tA"⟩, ⟨"20", "40", "tB"⟩]⟩
    (by decide) (by decide)
  exact h.trans (by decide)

/-- C7: both bounds of `inRange` are inclusive, so the degenerate range
from a valid chapter to itself contains it. -/
theorem c7_inRange_refl (c : String) (t : Nat × Nat) (h : chapterToken c = .ok t) :
    inRange c c c = .ok true :=
  inRange_refl h

/-- C7 witness: the degenerate range at `"107-b"`. -/
theorem c7_witness : inRange "107-b" "107-b" "107-b" = .ok true :=
  c7_inRange_refl "107-b" (107, 2) (by decide)

/-- C8: `normalize` maps a null/undefined input to the empty string, and
any present input to its trimmed, lowercased form with every whitespace
run removed — equivalently, its lowercased characters with all whitespace
characters deleted (which also proves the trim step redundant); being a
total function, it never fails. -/
theorem c8_normalize :
    normalize none = "" ∧
    ∀ s : String, normalize (some s) =
      ⟨(s.data.map lowChar).filter (fun c => !isJsSpace c)⟩ :=
  ⟨rfl, normalize_some⟩

/-- C9: a chapter produced by a successful parse always tokenizes: the
bad-chapter-format error is unreachable for parser-produced chapters. -/
theorem c9_parser_chapter_valid (input : String) (cit : Citation)
    (h : parseRSA input = .ok cit) : ∃ t, chapterToken cit.chapter = .ok t := by
  rw [parseRSA_def] at h
  cases hm : matchCit (stripRsa (normalize (some input))).data with
  | none =>
    rw [hm] at h
    cases h
  | some r =>
    obtain ⟨chap, sec⟩ := r
    rw [hm] at h
    cases h
    obtain ⟨ds, suf, rfl, hne, hdig, hsuf⟩ := matchCit_some_chapOk hm
    rcases hsuf with rfl | ⟨c, hc, rfl⟩
    · refine ⟨(decFold ds, 0), ?_⟩
      show chapterToken ⟨(ds ++ []).map lowChar⟩ = _
      rw [List.append_nil, map_lowChar_digits hdig]
      exact chapterToken_digits hne hdig
    · refine ⟨(decFold ds, sufFold ([lowChar c].map upChar)), ?_⟩
      show chapterToken ⟨(ds ++ ['-', c]).map lowChar⟩ = _
      rw [List.map_append, map_lowChar_digits hdig,
        show (['-', c].map lowChar) = '-' :: [lowChar c] from by rw [List.map_cons, lowChar_dash]; rfl]
      exact chapterToken_suffixed hne hdig (by simp)
        (by
          intro x hx
          rcases List.mem_singleton.mp hx with rfl
          exact isAsciiLetter_lowChar hc)

/-- C9 witness: the parse of `"rsa225-a:24"` yields chapter `"225-a"`,
which tokenizes. -/
theorem c9_witness : ∃ t, chapterToken (Citation.chapter ⟨"225-a", some "24"⟩) = .ok t :=
  c9_parser_chapter_valid "rsa225-a:24" ⟨"225-a", some "24"⟩ (by decide)

/-- C10: the direct-hit test is decided by truthiness, not key presence: a
direct entry whose value is the empty string is skipped in favour of the
range scan; and payloads missing `chapter_to_title` or `title_ranges`
resolve to `ok null` rather than throwing. -/
theorem c10_truthy_direct :
    (∀ (chapter : String) (payload : MappingPayload),
      (payload.chapter_to_title.getD []).lookup chapter = some "" →
      folderForChapter chapter payload = scanRanges chapter (payload.title_ranges.getD [])) ∧
    (∀ chapter : String, folderForChapter chapter ⟨none, none⟩ = .ok none) ∧
    folderForChapter "12" ⟨some [("12", "")], some [⟨"1", "30", "t2"⟩]⟩ = .ok (some "t2") := by
  refine ⟨?_, ?_, by decide⟩
  · intro chapter payload h
    simp [folderForChapter, h]
  · intro chapter
    rfl

/-- C10 witness: the truthiness clause applied to a payload mapping `"8"`
to the empty string. -/
theorem c10_witness :
    folderForChapter "8" ⟨some [("8", "")], some []⟩ = scanRanges "8" [] :=
  c10_truthy_direct.1 "8" ⟨some [("8", "")], some []⟩ (by decide)

end NhRsa
